import Mathlib

/-!
Verification of the BubbleSort repository (src/hw0b_HelloWorld.cpp).

The development shallowly embeds the program's sorting and printing
engine over Lean lists:

* `passCnt c k l` is one inner pass of `bubbleSort` performing `k`
  adjacent comparisons (C++ inner loop `for j in [0, k)`), returning the
  updated list together with the number of exchanges performed and the
  number of comparator invocations.  The C++ `swapped` flag is `true`
  exactly when the exchange count is nonzero.
* `bubbleGo c k l` is the outer loop with `k` remaining passes (C++
  `for i in [0, n-1)`, so `k = n - 1` initially and the pass performed
  when `k' + 1` passes remain makes `k' + 1` comparisons, matching the
  C++ pass `i` making `n - i - 1` comparisons).  It returns the final
  list, total exchanges, number of passes executed, and total
  comparator invocations, honouring the early exit `if (!swapped) break`.
* `bubbleSort c l` mirrors `bubbleSort(holder, compare)`: for
  `n = distance(begin, end) < 2` it returns immediately (`n - 1 = 0`
  passes in Nat arithmetic), otherwise it runs the outer loop.
* `Nested α d` models the statically known nesting of the C++
  containers (`vector<int>`, `vector<vector<int>>`, ...): `d` is the
  number of container layers above the scalar, which is how the
  compile-time trait `is_container<value_type>` dispatches.
* `recursiveSort` mirrors `recursiveSort(container, compare)`: if the
  element type is itself a container it recurses into every element in
  order, otherwise it bubble-sorts the flat sequence.
* `printNDVector` mirrors the two `printNDVector` overloads, producing
  the exact character stream sent to `std::cout`.

The comparator functors `OddFirst`, `SumOfDigits` and the default
`std::greater<int>` are embedded over `Int`.  All integer arithmetic in
the functors only ever compares remainders with 0 or operates on
positive values, where C++ truncated division/remainder and Lean's `Int`
division/remainder agree.
-/

namespace BubbleSortCpp

/-- One inner bubble pass with `k` remaining comparisons.  Result
components: updated list, exchanges performed, comparator invocations.
`passCnt c k (x :: y :: rest)` compares `x` with `y` (C++
`compare(*it, *next)`), swaps them when the comparator fires, and
continues with the element now standing at the right of the compared
pair, exactly like the iterator walk in the C++ inner loop.  The
catch-all cases for lists shorter than the remaining comparison budget
are never reached from `bubbleGo`, whose budget is bounded by
`length - 1`. -/
def passCnt (c : α → α → Bool) : Nat → List α → List α × Nat × Nat
  | 0, l => (l, 0, 0)
  | _ + 1, [] => ([], 0, 0)
  | _ + 1, [x] => ([x], 0, 0)
  | k + 1, x :: y :: rest =>
    if c x y then
      let r := passCnt c k (x :: rest)
      (y :: r.1, r.2.1 + 1, r.2.2 + 1)
    else
      let r := passCnt c k (y :: rest)
      (x :: r.1, r.2.1, r.2.2 + 1)

/-- The outer loop of `bubbleSort` with `k` passes remaining.  Result
components: final list, total exchanges, passes executed, total
comparator invocations.  A pass executed with `k + 1` passes remaining
performs `k + 1` comparisons (C++ pass `i` of `n - 1` performs
`n - i - 1` comparisons).  When a pass performs zero exchanges the C++
`swapped` flag stays `false` and the loop breaks. -/
def bubbleGo (c : α → α → Bool) : Nat → List α → List α × Nat × Nat × Nat
  | 0, l => (l, 0, 0, 0)
  | k + 1, l =>
    let p := passCnt c (k + 1) l
    if p.2.1 = 0 then
      (p.1, 0, 1, p.2.2)
    else
      let r := bubbleGo c k p.1
      (r.1, p.2.1 + r.2.1, r.2.2.1 + 1, p.2.2 + r.2.2.2)

/-- Embedding of `bubbleSort(holder, compare)`: `n` is
`distance(begin, end)`; for `n < 2` the function returns at once, which
coincides with running `n - 1 = 0` passes in Nat subtraction. -/
def bubbleSort (c : α → α → Bool) (l : List α) : List α :=
  (bubbleGo c (l.length - 1) l).1

/-- Embedding of the functor `OddFirst::operator()`.  The C++ tests
`a % 2 != 0` / `a % 2 == 0` only compare the remainder with zero, where
C++ truncated `%` and Lean's `Int` `%` agree. -/
def OddFirst (a b : Int) : Bool :=
  if a % 2 ≠ 0 ∧ b % 2 = 0 then false
  else if a % 2 = 0 ∧ b % 2 ≠ 0 then true
  else decide (a < b)

/-- Embedding of the loop body of `SumOfDigits::sumDigits`: while
`n > 0`, add `n % 10` and divide `n` by 10.  The first argument is a
structural iteration budget; `sumDigits` passes `n.toNat`, which
dominates the loop's iteration count because `n / 10 < n` for `n > 0`,
so the budget is never exhausted and the function equals the C++ while
loop.  On the positive values reached by the loop, C++ truncated `/`
and `%` agree with Lean's `Int` operations. -/
def sumDigitsLoop : Nat → Int → Int
  | 0, _ => 0
  | fuel + 1, n => if 0 < n then n % 10 + sumDigitsLoop fuel (n / 10) else 0

/-- Embedding of `SumOfDigits::sumDigits`.  For `n <= 0` the C++ while
loop body never runs and the function returns 0. -/
def sumDigits (n : Int) : Int :=
  sumDigitsLoop n.toNat n

/-- Embedding of `SumOfDigits::operator()`. -/
def SumOfDigits (a b : Int) : Bool :=
  decide (sumDigits a < sumDigits b)

/-- Embedding of the default comparator `std::greater<int>` supplied by
the default arguments of `bubbleSort` and `recursiveSort`. -/
def stdGreater (a b : Int) : Bool :=
  decide (b < a)

/-- The statically known container shape of the C++ element types:
`Nested α 0` is the scalar type itself and `Nested α (d + 1)` is a
container whose `value_type` is `Nested α d`.  The trait
`is_container<T>` holds exactly for the `d + 1` layers. -/
@[reducible] def Nested (α : Type) : Nat → Type
  | 0 => α
  | d + 1 => List (Nested α d)

/-- Embedding of `recursiveSort(container, compare)`: when the
container's `value_type` is itself a container (`d + 1` remaining
layers below), recurse into every element in order; otherwise
(`value_type` is the scalar) bubble-sort the flat sequence. -/
def recursiveSort (c : α → α → Bool) : (d : Nat) → Nested α (d + 1) → Nested α (d + 1)
  | 0, l => bubbleSort c l
  | d + 1, l => List.map (recursiveSort c d) l

/-- The leaf-level flat sequences of a nested container, left to
right. -/
def leafSeqs : (d : Nat) → Nested α (d + 1) → List (List α)
  | 0, l => [l]
  | d + 1, l => (List.map (leafSeqs d) l).flatten

/-- The pure container structure of a nested value, with every scalar
erased. -/
def shape : (d : Nat) → Nested α d → Nested Unit d
  | 0, _ => ()
  | d + 1, l => List.map (shape d) l

/-- Embedding of the two `printNDVector` overloads, producing the exact
character stream written to `std::cout`.  The scalar overload prints
`string(depth * 4, ' ')` followed by the value and nothing else; the
container overload prints `string(depth * 4, ' ')`, then the two-byte
sequence newline-`\x7b`, then each element recursively at `depth + 1`
(the statement after the recursive call is the stray empty statement
`;` in the source, which emits nothing), then `string(depth * 4, ' ')`
followed by `\x7d`-newline. -/
def printNDVector : (d : Nat) → Nested Int d → Nat → String
  | 0, v, depth => String.mk (List.replicate (depth * 4) ' ') ++ toString v
  | d + 1, holder, depth =>
    String.mk (List.replicate (depth * 4) ' ') ++ "\n\x7b" ++
      (List.map (fun sub => printNDVector d sub (depth + 1)) holder).foldl
        (fun a b => a ++ b) "" ++
      (String.mk (List.replicate (depth * 4) ' ') ++ "\x7d\n")

/-- One bubble pass only permutes the list. -/
theorem passCnt_perm (c : α → α → Bool) : ∀ (k : Nat) (l : List α), ((passCnt c k l).1).Perm l
  | 0, l => by simp [passCnt]
  | _ + 1, [] => by simp [passCnt]
  | _ + 1, [x] => by simp [passCnt]
  | k + 1, x :: y :: rest => by
    by_cases h : c x y
    · simpa [passCnt, h] using ((passCnt_perm c k (x :: rest)).cons y).trans
        (List.Perm.swap x y rest)
    · simpa [passCnt, h] using (passCnt_perm c k (y :: rest)).cons x

/-- The outer loop only permutes the list. -/
theorem bubbleGo_perm (c : α → α → Bool) : ∀ (k : Nat) (l : List α), ((bubbleGo c k l).1).Perm l
  | 0, l => by simp [bubbleGo]
  | k + 1, l => by
    by_cases h : (passCnt c (k + 1) l).2.1 = 0
    · simpa [bubbleGo, h] using passCnt_perm c (k + 1) l
    · simpa [bubbleGo, h] using
        (bubbleGo_perm c k (passCnt c (k + 1) l).1).trans (passCnt_perm c (k + 1) l)

/-- If a pass performs no exchange it leaves the list unchanged, and the
adjacent pairs it inspected (the first `k` of them) all have a false
comparator. -/
theorem passCnt_noswap (c : α → α → Bool) :
    ∀ (k : Nat) (l : List α), (passCnt c k l).2.1 = 0 →
      (passCnt c k l).1 = l ∧ List.Chain' (fun a b => c a b = false) (l.take (k + 1))
  | 0, l, _ => ⟨rfl, by cases l <;> simp⟩
  | _ + 1, [], _ => ⟨rfl, by simp⟩
  | _ + 1, [x], _ => ⟨rfl, by simp⟩
  | k + 1, x :: y :: rest, h => by
    by_cases hxy : c x y
    · exfalso
      simp [passCnt, hxy] at h
    · have hxy' : c x y = false := by simpa using hxy
      simp only [passCnt, hxy', Bool.false_eq_true, if_false] at h ⊢
      have ih := passCnt_noswap c k (y :: rest) h
      refine ⟨by simp [ih.1], ?_⟩
      rw [List.take_succ_cons]
      rw [List.take_succ_cons] at ih
      exact List.chain'_cons.mpr ⟨hxy', by simpa [List.take_succ_cons] using ih.2⟩

/-- A pass over an adjacently sorted list performs no exchange and
leaves it unchanged. -/
theorem passCnt_sorted (c : α → α → Bool) :
    ∀ (k : Nat) (l : List α), List.Chain' (fun a b => c a b = false) l →
      (passCnt c k l).1 = l ∧ (passCnt c k l).2.1 = 0
  | 0, _, _ => ⟨rfl, rfl⟩
  | _ + 1, [], _ => ⟨rfl, rfl⟩
  | _ + 1, [x], _ => ⟨rfl, rfl⟩
  | k + 1, x :: y :: rest, h => by
    have hxy : c x y = false := (List.chain'_cons.mp h).1
    have ih := passCnt_sorted c k (y :: rest) (List.chain'_cons.mp h).2
    simp [passCnt, hxy, ih.1, ih.2]

/-- Membership for the optional last element of a list. -/
theorem mem_of_getLast?_mem {l : List α} {x : α} (h : x ∈ l.getLast?) : x ∈ l := by
  obtain ⟨hne, rfl⟩ := List.mem_getLast?_eq_getLast h
  exact List.getLast_mem hne

/-- A pass with `k` comparisons over `x :: ys` (with `k ≤ ys.length`,
as in every pass started by the outer loop) only rearranges the first
`k + 1` elements and carries a maximum of those elements into position
`k`: the returned list is `f ++ w :: ys.drop k` where `f ++ [w]` is a
permutation of `x :: ys.take k` and the comparator refuses to move any
of those elements past `w`.  The comparator hypotheses say that `c` is
a strict weak ordering: irreflexive, transitive, and negatively
transitive. -/
theorem passCnt_winner (c : α → α → Bool)
    (hIrr : ∀ a, c a a = false)
    (hTrans : ∀ a b e, c a b = true → c b e = true → c a e = true)
    (hNegTrans : ∀ a b e, c a b = false → c b e = false → c a e = false) :
    ∀ (k : Nat) (x : α) (ys : List α), k ≤ ys.length →
      ∃ f w, (passCnt c k (x :: ys)).1 = f ++ w :: ys.drop k ∧
        (f ++ [w]).Perm (x :: ys.take k) ∧
        ∀ z ∈ f ++ [w], c z w = false
  | 0, x, ys, _ => ⟨[], x, by simp [passCnt], by simp, by simpa using hIrr x⟩
  | k + 1, x, [], hk => absurd hk (by simp)
  | k + 1, x, y :: rest, hk => by
    have hk' : k ≤ rest.length := by simpa using hk
    by_cases hxy : c x y
    · obtain ⟨f, w, hstruct, hperm, hwin⟩ :=
        passCnt_winner c hIrr hTrans hNegTrans k x rest hk'
      refine ⟨y :: f, w, ?_, ?_, ?_⟩
      · simp only [passCnt, hxy, if_true, List.drop_succ_cons]
        simp [hstruct]
      · rw [List.take_succ_cons]
        exact (hperm.cons y).trans (List.Perm.swap x y (rest.take k))
      · intro z hz
        rcases List.mem_append.mp hz with hzf | hzw
        · rcases List.mem_cons.mp hzf with rfl | hzf'
          · have hxw : c x w = false :=
              hwin x (hperm.mem_iff.mpr (List.mem_cons_self x _))
            cases hzw : c z w with
            | false => rfl
            | true => exact absurd (hTrans x z w hxy hzw) (by simp [hxw])
          · exact hwin z (List.mem_append_left _ hzf')
        · exact hwin z (List.mem_append_right _ hzw)
    · have hxy' : c x y = false := by simpa using hxy
      obtain ⟨f, w, hstruct, hperm, hwin⟩ :=
        passCnt_winner c hIrr hTrans hNegTrans k y rest hk'
      refine ⟨x :: f, w, ?_, ?_, ?_⟩
      · simp only [passCnt, hxy', Bool.false_eq_true, if_false, List.drop_succ_cons]
        simp [hstruct]
      · rw [List.take_succ_cons]
        exact hperm.cons x
      · intro z hz
        rcases List.mem_append.mp hz with hzf | hzw
        · rcases List.mem_cons.mp hzf with rfl | hzf'
          · have hyw : c y w = false :=
              hwin y (hperm.mem_iff.mpr (List.mem_cons_self y _))
            exact hNegTrans z y w hxy' hyw
          · exact hwin z (List.mem_append_left _ hzf')
        · exact hwin z (List.mem_append_right _ hzw)

/-- Invariant of the outer loop: with `k + 1` passes remaining, the
elements beyond position `k + 1` are already in final position: every
element of the active prefix refuses to move past any of them, and they
are pairwise ordered.  Under a strict weak ordering comparator the loop
then produces an adjacently sorted list. -/
theorem bubbleGo_sorted (c : α → α → Bool)
    (hIrr : ∀ a, c a a = false)
    (hTrans : ∀ a b e, c a b = true → c b e = true → c a e = true)
    (hNegTrans : ∀ a b e, c a b = false → c b e = false → c a e = false) :
    ∀ (k : Nat) (l : List α), k + 1 ≤ l.length →
      (∀ x ∈ l.take (k + 1), ∀ y ∈ l.drop (k + 1), c x y = false) →
      List.Pairwise (fun a b => c a b = false) (l.drop (k + 1)) →
      List.Chain' (fun a b => c a b = false) (bubbleGo c k l).1 := by
  intro k
  induction k with
  | zero =>
    intro l hlen hcross hpair
    match l, hlen with
    | a :: t, _ =>
      show List.Chain' _ (bubbleGo c 0 (a :: t)).1
      simp only [bubbleGo]
      have h1 : ∀ y ∈ t, c a y = false := fun y hy =>
        hcross a (by simp) y (by simpa using hy)
      exact (List.Pairwise.cons h1 (by simpa using hpair)).chain'
  | succ k ih =>
    intro l hlen hcross hpair
    match l, hlen with
    | x :: ys, hlen =>
      have hk : k + 1 ≤ ys.length := by simpa using hlen
      obtain ⟨f, w, hstruct, hperm, hwin⟩ :=
        passCnt_winner c hIrr hTrans hNegTrans (k + 1) x ys hk
      have hflen : f.length = k + 1 := by
        have h := hperm.length_eq
        simp [List.length_take] at h
        omega
      have hdropys : ys.drop (k + 1) = (x :: ys).drop (k + 2) := (List.drop_succ_cons).symm
      by_cases hz : (passCnt c (k + 1) (x :: ys)).2.1 = 0
      · have hnos := passCnt_noswap c (k + 1) (x :: ys) hz
        rw [show (bubbleGo c (k + 1) (x :: ys)).1 = (passCnt c (k + 1) (x :: ys)).1 from by
          simp [bubbleGo, hz]]
        rw [hnos.1]
        rw [← List.take_append_drop (k + 2) (x :: ys)]
        refine List.chain'_append.mpr ⟨hnos.2, hpair.chain', ?_⟩
        intro a ha b hb
        exact hcross a (mem_of_getLast?_mem ha) b (List.mem_of_mem_head? hb)
      · rw [show (bubbleGo c (k + 1) (x :: ys)).1
              = (bubbleGo c k (passCnt c (k + 1) (x :: ys)).1).1 from by
          simp [bubbleGo, hz]]
        have hplen : ((passCnt c (k + 1) (x :: ys)).1).length = ys.length + 1 := by
          simpa using (passCnt_perm c (k + 1) (x :: ys)).length_eq
        apply ih
        · omega
        · intro a ha b hb
          rw [hstruct, List.take_left' hflen] at ha
          rw [hstruct, List.drop_left' hflen] at hb
          rcases List.mem_cons.mp hb with rfl | hb'
          · exact hwin a (List.mem_append_left _ ha)
          · have haorig : a ∈ (x :: ys).take (k + 2) := by
              have hmem : a ∈ f ++ [w] := List.mem_append_left _ ha
              simpa [List.take_succ_cons] using hperm.mem_iff.mp hmem
            exact hcross a haorig b (hdropys ▸ hb')
        · rw [hstruct, List.drop_left' hflen]
          refine List.Pairwise.cons ?_ (hdropys ▸ hpair)
          intro b hb
          have hworig : w ∈ (x :: ys).take (k + 2) := by
            have hmem : w ∈ f ++ [w] := List.mem_append_right _ (by simp)
            simpa [List.take_succ_cons] using hperm.mem_iff.mp hmem
          exact hcross w hworig b (hdropys ▸ hb)

/-- The sorting theorem in helper form, shared by the order
establishment and default-comparator results: under a strict weak
ordering comparator, `bubbleSort` leaves the exchange predicate false
on every adjacent pair. -/
theorem bubbleSort_sorted_aux (c : α → α → Bool)
    (hIrr : ∀ a, c a a = false)
    (hTrans : ∀ a b e, c a b = true → c b e = true → c a e = true)
    (hNegTrans : ∀ a b e, c a b = false → c b e = false → c a e = false)
    (l : List α) :
    List.Chain' (fun x y => c x y = false) (bubbleSort c l) := by
  match l with
  | [] => simp [bubbleSort, bubbleGo]
  | x :: ys =>
    show List.Chain' _ (bubbleGo c ((x :: ys).length - 1) (x :: ys)).1
    have hlen : (x :: ys).length - 1 = ys.length := by simp
    rw [hlen]
    apply bubbleGo_sorted c hIrr hTrans hNegTrans ys.length (x :: ys) (by simp)
    · intro a ha b hb
      simp [List.drop_succ_cons] at hb
    · simp [List.drop_succ_cons]

/-- C2: the sequence after `bubbleSort` is a permutation of the sequence
before, for every comparator: the multiset of elements is unchanged. -/
theorem bubbleSort_perm (c : α → α → Bool) (l : List α) : (bubbleSort c l).Perm l :=
  bubbleGo_perm c (l.length - 1) l

/-- C9: on sequences of length 0 or 1, for every comparator,
`bubbleSort` returns with the sequence unchanged, performing zero
passes, zero exchanges and zero comparator invocations. -/
theorem bubbleSort_short_noop (c : α → α → Bool) (l : List α) (h : l.length ≤ 1) :
    bubbleGo c (l.length - 1) l = (l, 0, 0, 0) ∧ bubbleSort c l = l := by
  have hk : l.length - 1 = 0 := by omega
  refine ⟨by rw [hk]; simp [bubbleGo], ?_⟩
  show (bubbleGo c (l.length - 1) l).1 = l
  rw [hk]
  simp [bubbleGo]

/-- Witness for C9 at the singleton list `[42]`. -/
theorem bubbleSort_short_noop_witness :
    ([42] : List Int).length ≤ 1 ∧
      (bubbleGo stdGreater (([42] : List Int).length - 1) [42] = ([42], 0, 0, 0) ∧
        bubbleSort stdGreater [42] = [42]) :=
  ⟨by decide, bubbleSort_short_noop stdGreater [42] (by decide)⟩

/-- C1: for every finite sequence and every comparator that is a strict
weak ordering (irreflexive, transitive and negatively transitive —
equivalently asymmetric with transitive incomparability), after
`bubbleSort` the comparator's exchange predicate is false on every
adjacent pair of the result. -/
theorem bubbleSort_sorted_of_swo (c : α → α → Bool)
    (hIrr : ∀ a, c a a = false)
    (hTrans : ∀ a b e, c a b = true → c b e = true → c a e = true)
    (hNegTrans : ∀ a b e, c a b = false → c b e = false → c a e = false)
    (l : List α) :
    List.Chain' (fun x y => c x y = false) (bubbleSort c l) :=
  bubbleSort_sorted_aux c hIrr hTrans hNegTrans l

/-- Witness for C1: the default comparator `stdGreater` is a strict
weak ordering on `Int`, and the sample input of `main` comes out
adjacently sorted. -/
theorem bubbleSort_sorted_of_swo_witness :
    (∀ a : Int, stdGreater a a = false) ∧
      (∀ a b e : Int, stdGreater a b = true → stdGreater b e = true → stdGreater a e = true) ∧
      (∀ a b e : Int, stdGreater a b = false → stdGreater b e = false →
        stdGreater a e = false) ∧
      List.Chain' (fun x y => stdGreater x y = false)
        (bubbleSort stdGreater [5, 2, 9, 1, 5, 6]) := by
  have hIrr : ∀ a : Int, stdGreater a a = false := fun a => by simp [stdGreater]
  have hTrans : ∀ a b e : Int, stdGreater a b = true → stdGreater b e = true →
      stdGreater a e = true := fun a b e hab hbe => by
    simp only [stdGreater, decide_eq_true_eq] at hab hbe ⊢
    omega
  have hNegTrans : ∀ a b e : Int, stdGreater a b = false → stdGreater b e = false →
      stdGreater a e = false := fun a b e hab hbe => by
    simp only [stdGreater, decide_eq_false_iff_not] at hab hbe ⊢
    omega
  exact ⟨hIrr, hTrans, hNegTrans,
    bubbleSort_sorted_of_swo stdGreater hIrr hTrans hNegTrans [5, 2, 9, 1, 5, 6]⟩

/-- C8: the default comparator (`std::greater<int>`) produces ascending
numeric order: after sorting with it — through `bubbleSort` directly or
through `recursiveSort` on a flat sequence — every adjacent pair
`(x, y)` of the result satisfies `x ≤ y`. -/
theorem bubbleSort_default_ascending (l : List Int) :
    List.Chain' (fun x y => x ≤ y) (bubbleSort stdGreater l) ∧
      List.Chain' (fun x y => x ≤ y) (recursiveSort stdGreater 0 l) := by
  have h := bubbleSort_sorted_aux stdGreater
    (fun a => by simp [stdGreater])
    (fun a b e hab hbe => by
      simp only [stdGreater, decide_eq_true_eq] at hab hbe ⊢
      omega)
    (fun a b e hab hbe => by
      simp only [stdGreater, decide_eq_false_iff_not] at hab hbe ⊢
      omega)
    l
  have h' := h.imp (fun a b hab => by
    simpa [stdGreater, Int.not_lt] using hab)
  exact ⟨h', h'⟩

/-- C3: evaluation of the code at the claim's example input.  Sorting
`[5, 2, 9, 1, 5, 6]` with `OddFirst` yields `[9, 5, 5, 1, 6, 2]` — odd
residues do come before even ones, but each parity group ends up in
descending numeric order, because `bubbleSort` exchanges a pair exactly
when the comparator returns `true` and `OddFirst` returns `a < b`
within a group.  The claim (and the functor's own comment) expects
`[1, 5, 5, 9, 2, 6]`. -/
theorem oddFirst_sort_eval :
    bubbleSort OddFirst [5, 2, 9, 1, 5, 6] = [9, 5, 5, 1, 6, 2] := by decide

/-- C4: evaluation of the code at the claim's example input.
`sumDigits` returns 0 on every negative argument (the `while (n > 0)`
loop never runs), so it is not sign-insensitive, and sorting
`[234, 56, 123]` with `SumOfDigits` yields `[56, 234, 123]` —
descending digit sums 11, 9, 6 — because `bubbleSort` exchanges exactly
when the comparator returns `true`.  The claim (and the functor's own
comment) expects ascending order `[123, 234, 56]`. -/
theorem sumOfDigits_sort_eval :
    sumDigits 234 = 9 ∧ sumDigits (-234) = 0 ∧ sumDigits 56 = 11 ∧ sumDigits 123 = 6 ∧
      bubbleSort SumOfDigits [234, 56, 123] = [56, 234, 123] := by decide

/-- C7: evaluation of the printer on the nested container `[[5, 2, 9]]`.
The container overload emits the indentation, then a newline, then the
opening bracket, so the bracket lands at column 0 of the following line
instead of standing on its own line at the parent indentation; and no
newline at all is emitted after a scalar (the statement carrying the
comment "Newline for better readability after each element" is a stray
empty `;`), so all scalars of a leaf sequence and the closing bracket
share one line.  The claim expects each bracket on its own line at the
parent indentation and each scalar alone on a line indented
`depth * 4`. -/
theorem printNDVector_eval :
    printNDVector 2 ([[5, 2, 9]] : Nested Int 2) 0 =
      "\n\x7b    \n\x7b        5        2        9    \x7d\n\x7d\n" := by decide

/-- C6: on a sequence already adjacently sorted for the given
comparator, `bubbleSort` performs zero exchanges, leaves the sequence
unchanged, and runs a single pass (no pass at all on sequences shorter
than two, where the function returns before the loop). -/
theorem bubbleSort_idempotent (c : α → α → Bool) (l : List α)
    (h : List.Chain' (fun a b => c a b = false) l) :
    bubbleSort c l = l ∧ (bubbleGo c (l.length - 1) l).2.1 = 0 ∧
      (bubbleGo c (l.length - 1) l).2.2.1 = if l.length ≤ 1 then 0 else 1 := by
  rcases le_or_lt l.length 1 with h1 | h1
  · have hk : l.length - 1 = 0 := by omega
    refine ⟨?_, ?_, ?_⟩ <;> simp [bubbleSort, hk, bubbleGo, h1]
  · obtain ⟨k, hk⟩ : ∃ k, l.length - 1 = k + 1 := ⟨l.length - 2, by omega⟩
    have hp := passCnt_sorted c (k + 1) l h
    have hgo : bubbleGo c (k + 1) l = ((passCnt c (k + 1) l).1, 0, 1, (passCnt c (k + 1) l).2.2) := by
      simp [bubbleGo, hp.2]
    refine ⟨?_, ?_, ?_⟩
    · show (bubbleGo c (l.length - 1) l).1 = l
      rw [hk, hgo, hp.1]
    · rw [hk, hgo]
    · rw [hk, hgo, if_neg (by omega)]

/-- Witness for C6 at the adjacently sorted list `[1, 2, 3]` under the
default comparator. -/
theorem bubbleSort_idempotent_witness :
    List.Chain' (fun a b => stdGreater a b = false) [1, 2, 3] ∧
      (bubbleSort stdGreater [1, 2, 3] = [1, 2, 3] ∧
        (bubbleGo stdGreater (([1, 2, 3] : List Int).length - 1) [1, 2, 3]).2.1 = 0 ∧
        (bubbleGo stdGreater (([1, 2, 3] : List Int).length - 1) [1, 2, 3]).2.2.1 =
          if ([1, 2, 3] : List Int).length ≤ 1 then 0 else 1) :=
  ⟨by simp [List.chain'_cons, stdGreater],
    bubbleSort_idempotent stdGreater [1, 2, 3] (by simp [List.chain'_cons, stdGreater])⟩

/-- A pass with a budget of `k` comparisons on a list of length `n`
performs exactly `min k (n - 1)` comparisons; in particular the pass
started by the outer loop with budget `n - i - 1 ≤ n - 1` performs
exactly `n - i - 1` comparisons. -/
theorem passCnt_comps (c : α → α → Bool) :
    ∀ (k : Nat) (l : List α), (passCnt c k l).2.2 = min k (l.length - 1)
  | 0, l => by simp [passCnt]
  | _ + 1, [] => by simp [passCnt]
  | _ + 1, [x] => by simp [passCnt]
  | k + 1, x :: y :: rest => by
    by_cases h : c x y
    · have ih := passCnt_comps c k (x :: rest)
      simp only [passCnt, h, if_true, ih]
      simp only [List.length_cons]
      omega
    · have ih := passCnt_comps c k (y :: rest)
      simp only [passCnt, h, Bool.false_eq_true, if_false, ih]
      simp only [List.length_cons]
      omega

/-- Gauss step for the triangular comparison bound. -/
theorem triangle_succ (k : Nat) : (k + 1) * (k + 2) / 2 = k * (k + 1) / 2 + (k + 1) := by
  have h1 : (k + 1) * (k + 2) = k * (k + 1) + (k + 1) * 2 := by ring
  rw [h1, Nat.add_mul_div_right _ _ (by norm_num : (0 : Nat) < 2)]

/-- The outer loop with `k` passes remaining executes at most `k`
passes and at most `k * (k + 1) / 2` comparisons, for every comparator
whatsoever. -/
theorem bubbleGo_bounds (c : α → α → Bool) :
    ∀ (k : Nat) (l : List α),
      (bubbleGo c k l).2.2.1 ≤ k ∧ (bubbleGo c k l).2.2.2 ≤ k * (k + 1) / 2
  | 0, l => by simp [bubbleGo]
  | k + 1, l => by
    have hpc : (passCnt c (k + 1) l).2.2 ≤ k + 1 := by
      rw [passCnt_comps]
      omega
    have hstep := triangle_succ k
    have hkk : (k + 1) * (k + 1 + 1) = (k + 1) * (k + 2) := by ring
    by_cases h : (passCnt c (k + 1) l).2.1 = 0
    · simp only [bubbleGo, h, if_true]
      exact ⟨by omega, by omega⟩
    · have ih := bubbleGo_bounds c k (passCnt c (k + 1) l).1
      simp only [bubbleGo, h, if_false]
      refine ⟨by omega, ?_⟩
      calc (passCnt c (k + 1) l).2.2 + (bubbleGo c k (passCnt c (k + 1) l).1).2.2.2
      _ ≤ (k + 1) + k * (k + 1) / 2 := Nat.add_le_add hpc ih.2
      _ = (k + 1) * (k + 2) / 2 := by omega

/-- C10: `bubbleSort` terminates on every finite sequence with every
comparator (the embedding is a total structurally recursive function);
the outer loop executes at most `n - 1` passes, a pass with comparison
budget `k` performs exactly `min k (n - 1)` comparisons (so pass `i`,
whose budget is `n - i - 1`, performs exactly `n - i - 1`), and the
total number of comparator invocations is at most `n * (n - 1) / 2`. -/
theorem bubbleSort_termination_bound (c : α → α → Bool) (l : List α) :
    (bubbleGo c (l.length - 1) l).2.2.1 ≤ l.length - 1 ∧
      (bubbleGo c (l.length - 1) l).2.2.2 ≤ l.length * (l.length - 1) / 2 ∧
      ∀ k, (passCnt c k l).2.2 = min k (l.length - 1) := by
  refine ⟨(bubbleGo_bounds c (l.length - 1) l).1, ?_, fun k => passCnt_comps c k l⟩
  have h := (bubbleGo_bounds c (l.length - 1) l).2
  cases l with
  | nil => simpa using h
  | cons a t =>
    have he : (a :: t).length - 1 + 1 = (a :: t).length := by simp
    rw [he] at h
    rw [Nat.mul_comm]
    exact h

/-- Every function into `Unit` maps a list to a replicate of its
length. -/
theorem map_shape_zero (l : List α) :
    List.map (shape (α := α) 0) l = List.replicate l.length () := by
  induction l with
  | nil => rfl
  | cons a t ih => simp [shape, ih, List.replicate_succ]

/-- Recursive helper for the frame property of `recursiveSort`: the
leaf sequences of the result are the bubble-sorted leaf sequences of
the input, in the same order, and the container structure above the
leaves is untouched. -/
theorem recursiveSort_leaves_aux (c : α → α → Bool) :
    ∀ (d : Nat) (x : Nested α (d + 1)),
      leafSeqs d (recursiveSort c d x) = List.map (bubbleSort c) (leafSeqs d x) ∧
        shape (d + 1) (recursiveSort c d x) = shape (d + 1) x
  | 0, x => by
    refine ⟨by simp [leafSeqs, recursiveSort], ?_⟩
    show List.map (shape 0) (bubbleSort c x) = List.map (shape 0) x
    have hlen : (bubbleSort c x).length = x.length :=
      (bubbleGo_perm c (x.length - 1) x).length_eq
    rw [map_shape_zero, map_shape_zero, hlen]
  | d + 1, x => by
    constructor
    · show (List.map (leafSeqs d) (List.map (recursiveSort c d) x)).flatten
        = List.map (bubbleSort c) (List.map (leafSeqs d) x).flatten
      rw [List.map_map, List.map_flatten, List.map_map]
      have hcomp : (leafSeqs d ∘ recursiveSort c d)
          = (List.map (bubbleSort c) ∘ leafSeqs (α := α) d) :=
        funext fun t => (recursiveSort_leaves_aux c d t).1
      rw [hcomp]
    · show List.map (shape (d + 1)) (List.map (recursiveSort c d) x)
        = List.map (shape (d + 1)) x
      rw [List.map_map]
      have hcomp : (shape (d + 1) ∘ recursiveSort c d) = shape (α := α) (d + 1) :=
        funext fun t => (recursiveSort_leaves_aux c d t).2
      rw [hcomp]

/-- C5: `recursiveSort` reorders only the leaf-level flat sequences,
each sorted independently with the given comparator by `bubbleSort`;
the sequence of leaf sequences keeps its order, and the container
structure at every intermediate level — in particular the relative
order of sub-containers — is unchanged, no intermediate level being
itself sorted as a sequence of sub-containers. -/
theorem recursiveSort_leaves (c : α → α → Bool) (d : Nat) (x : Nested α (d + 1)) :
    leafSeqs d (recursiveSort c d x) = List.map (bubbleSort c) (leafSeqs d x) ∧
      shape (d + 1) (recursiveSort c d x) = shape (d + 1) x :=
  recursiveSort_leaves_aux c d x

end BubbleSortCpp
